import Mathlib

/-!
# Keybearer threshold file-encryption engine: verification of its specification

Shallow embedding of the keybearer v2 engine (`src/kb.js`, `src/kb-noble.js`,
the legacy adapter `kb-legacy.js`, and the UI controller `kbpage-v2.js`).

Modelling conventions:
* JS `Uint8Array` byte buffers are `List Nat`.
* The cryptographically secure random source (`crypto.getRandomValues`) is an
  explicit tape of naturals threaded through every operation; theorems
  quantify over all tapes.
* The AEAD primitive (ChaCha20-Poly1305 from `@noble/ciphers`, an external
  library, described in spec §2 as "authenticated symmetric encryption
  (key, nonce, associated data) → (ciphertext+tag); and the inverse, which
  fails closed on tag mismatch") is modelled as an idealized AEAD: the
  ciphertext value records the plaintext body together with the sealing key
  and nonce, and opening succeeds exactly when key and nonce match.
  JS exceptions thrown on tag mismatch are modelled as `Option` failure.
* PBKDF2 (also external) is modelled as an injective encoding of
  (password, salt, iterations, key length).
* The JSON/base64 envelope codec is modelled at the parsed-object level:
  `encodeBase64`/`decodeBase64` form an inverse pair on byte arrays, so the
  wire form of each byte field is identified with the field itself.
* The mutable global `keybearer` object is an explicit `KBState` value.
-/

namespace Keybearer

open List

/-- Byte buffers (`Uint8Array`). -/
abbrev Bytes := List Nat

/-! ## Random source (`kb-noble.js`: `getRandomBytes`, `randomIntegers`) -/

/-- The random source: an infinite tape of naturals and a read position. -/
structure RNG where
  tape : Nat → Nat
  pos : Nat

/-- Read one value off the tape. -/
def RNG.next (g : RNG) : Nat × RNG :=
  (g.tape g.pos, ⟨g.tape, g.pos + 1⟩)

namespace noble

/-- Embeds `getRandomBytes(count)`: `count` fresh random bytes. -/
def getRandomBytes : Nat → RNG → Bytes × RNG
  | 0, g => ([], g)
  | n + 1, g =>
    let (b, g1) := g.next
    let (rest, g2) := getRandomBytes n g1
    (b % 256 :: rest, g2)

/-- Embeds `randomIntegers(max, count)`: `count` random integers in `[0, max)`.
The JS uses rejection sampling to remove modulo bias; bias is a
distributional property, so the model keeps only the functional contract:
each produced value is a tape value reduced into range. -/
def randomIntegers : Nat → Nat → RNG → List Nat × RNG
  | _, 0, g => ([], g)
  | maxv, n + 1, g =>
    let (v, g1) := g.next
    let (rest, g2) := randomIntegers maxv n g1
    (v % maxv :: rest, g2)

/-- Modelled from the spec: PBKDF2-SHA256 (`deriveKeyFromPassword` in
`kb-noble.js` calls the external `@noble/hashes` implementation, which is not
part of this repository). Spec §2: "password + salt + iteration count →
fixed-length key". Modelled as an injective encoding of all inputs. -/
def deriveKeyFromPassword (password : String) (salt : Bytes)
    (iterations keyLength : Nat) : Bytes :=
  keyLength :: iterations :: salt.length :: (salt ++ password.data.map Char.toNat)

/-- Modelled from the spec: an idealized AEAD ciphertext-with-tag. The tag
authenticates the sealing key and nonce; the body is the plaintext. -/
structure AEADCt where
  body : Bytes
  tagKey : Bytes
  tagNonce : Bytes
deriving DecidableEq

/-- Modelled from the spec: AEAD open; "fails closed on tag mismatch"
(spec §2). Succeeds exactly when key and nonce match the sealing ones. -/
def aeadOpen (key : Bytes) (ct : AEADCt) (nonce : Bytes) : Option Bytes :=
  if ct.tagKey = key ∧ ct.tagNonce = nonce then some ct.body else none

/-- Embeds `encryptChaCha20Poly1305(key, plaintext, nonce)` returning
`{ciphertext, nonce}`. All call sites in `kb.js` supply the nonce. -/
def encryptChaCha20Poly1305 (key plaintext nonce : Bytes) : AEADCt × Bytes :=
  (⟨plaintext, key, nonce⟩, nonce)

/-- Embeds `decryptChaCha20Poly1305(key, ciphertext, nonce)`; the JS throws on
authentication failure, modelled as `none`. -/
def decryptChaCha20Poly1305 (key : Bytes) (ciphertext : AEADCt)
    (nonce : Bytes) : Option Bytes :=
  aeadOpen key ciphertext nonce

end noble

/-! ## String normalization (`kb.js` `normalizeString`) -/

/-- The character class of the JS regex `\s`. -/
def isWS (c : Char) : Bool :=
  let n := c.toNat
  n = 0x20 || (0x9 ≤ n && n ≤ 0xD) || n = 0xA0 || n = 0x1680 ||
  (0x2000 ≤ n && n ≤ 0x200A) || n = 0x2028 || n = 0x2029 ||
  n = 0x202F || n = 0x205F || n = 0x3000 || n = 0xFEFF

/-- Embeds `string.replace(/\s+/g, ' ')`: every maximal whitespace run becomes one
space. The flag records whether the previous character was whitespace. -/
def collapseWS : Bool → List Char → List Char
  | _, [] => []
  | inWS, c :: rest =>
    if isWS c then
      if inWS then collapseWS true rest
      else ' ' :: collapseWS true rest
    else c :: collapseWS false rest

/-- Embeds `string.replace(/(^\s|\s$)/g, '')`: drop one leading and one trailing
whitespace character. -/
def trimOne (l : List Char) : List Char :=
  let l1 := match l with
    | c :: rest => if isWS c then rest else l
    | [] => []
  match l1.reverse with
  | c :: rest => if isWS c then rest.reverse else l1
  | [] => []

/-- Embeds `keybearer.normalizeString`: collapse whitespace runs, then strip the
(now single-character) leading/trailing whitespace. -/
def normalizeString (s : String) : String :=
  ⟨trimOne (collapseWS false s.data)⟩

/-! ## Sorting (JS `Array.prototype.sort()` on strings)

JS default sort compares strings by their UTF-16 code unit sequences; for
the code points involved this is lexicographic comparison of the character
sequences, which is modelled here.  JS sort produces the sorted permutation
of its input; `List.insertionSort` produces the same list because sorted
permutations under a total antisymmetric order coincide. -/

/-- Lexicographic comparison of character lists by code point. -/
def charListLe : List Char → List Char → Bool
  | [], _ => true
  | _ :: _, [] => false
  | a :: as, b :: bs =>
    if a.toNat < b.toNat then true
    else if b.toNat < a.toNat then false
    else charListLe as bs

/-- String comparison used by the JS default sort. -/
def strLe (a b : String) : Bool := charListLe a.data b.data

/-- Relation form of `strLe`. -/
def StrLe (a b : String) : Prop := strLe a b = true

instance : DecidableRel StrLe := fun a b => by unfold StrLe; infer_instance

/-- The JS `passwords.sort()`. -/
def sortStrings (l : List String) : List String :=
  List.insertionSort StrLe l

/-! ## Combination enumeration (`kb.js` `makeCombinedPasswords`) -/

/-- Remove the first occurrence of a character (JS `replace(/ /, '')` with a
character pattern removes only the first match). -/
def removeFirstChar (c : Char) : List Char → List Char
  | [] => []
  | x :: xs => if x = c then xs else x :: removeFirstChar c xs

/-- Embeds `prefix.replace(/ /, '')`: remove the first space. -/
def removeFirstSpace (s : String) : String := ⟨removeFirstChar ' ' s.data⟩

/-- The inner recursive `combine` of `makeCombinedPasswords`.  The JS builds
`[prefix, passwords[i]].join(' ')` starting from `prefix = null`; `join`
renders `null` as the empty string, so the accumulator is a `String` that
starts empty, and each leaf strips the resulting leading space.  The JS
`for (let i = start; i < passwords.length; i++)` loop is the `flatMap` over
`range' start (passwords.length - start)`. -/
def combine (ps : List String) : Nat → String → Nat → List String
  | 0, pfx, _ => [removeFirstSpace pfx]
  | l + 1, pfx, start =>
    (List.range' start (ps.length - start)).flatMap
      (fun i => combine ps l (pfx ++ " " ++ ps.getD i "") (i + 1))

/-! ## Data model: cipher object, wrapped keys, engine state (`kb.js`) -/

/-- One wrapped-key entry `{iv, key}` of the envelope `keys` array. -/
structure KeyIV where
  iv : Bytes
  key : noble.AEADCt
deriving DecidableEq

/-- The cipher object: both the in-memory `_cipherobj` and the parsed JSON
envelope (the base64 codec is an inverse pair on byte arrays, so wire fields
are identified with their decoded values).  `v` is `none` when the version
field is absent, and `ct` is `none` before `encryptPlaintext` fills it in
(`makeMetadataObject` sets `ct: null`). -/
structure CipherObj where
  adata : String
  iter : Nat
  mode : String
  cipher : String
  ts : Nat
  ks : Nat
  salt : Bytes
  iv : Bytes
  v : Option Nat
  ct : Option noble.AEADCt
  fn : Option String
  ft : Option String
  nkeys : Nat
  nunlock : Nat
  keys : List KeyIV
deriving DecidableEq

/-- The mutable fields of the global `keybearer` object used by the engine
(wordlist fields are out of scope). -/
structure KBState where
  salt : Bytes
  pbkdf2_iterations : Nat
  plaintext : Option Bytes
  cipherobj : Option CipherObj
  keys : List Bytes
  master : Option Bytes
  filename : Option String
  filetype : Option String
  nPasswords : Nat
  nToUnlock : Nat
  lastMetadata : Option CipherObj

/-- Embeds `keybearer.salt_length` (bytes). -/
def salt_length : Nat := 16

/-- Embeds `keybearer.aes_key_strength` (bytes). -/
def aes_key_strength : Nat := 32

/-- Embeds `keybearer.aes_cipher_mode`; set once, never mutated by any code in the
repository. -/
def aes_cipher_mode : String := "chacha20poly1305"

/-- Whether the SJCL bundle is loaded (`typeof sjcl !== 'undefined'`); the
v2 bundle retains SJCL solely for legacy decryption. -/
def sjclDefined : Bool := true

/-! ## Engine operations (`kb.js`) -/

/-- Embeds `keybearer.makeSalt()`. -/
def makeSalt (st : KBState) (g : RNG) : KBState × RNG :=
  let (s, g1) := noble.getRandomBytes salt_length g
  ({st with salt := s}, g1)

/-- Embeds `keybearer.makeKeyFromPassword(password)`.  The legacy branch
(`sjcl.misc.pbkdf2`, taken when the salt is an SJCL bitArray) computes the
same PBKDF2-SHA256 function as the Noble branch (`kb-legacy.js` notes
"Noble's PBKDF2 should produce same output"), so both branches are the one
modelled derivation. -/
def makeKeyFromPassword (st : KBState) (password : String) : Bytes :=
  noble.deriveKeyFromPassword password st.salt st.pbkdf2_iterations aes_key_strength

/-- Embeds `keybearer.makeCombinedPasswords(passwords, nToUnlock)`: normalize
every password, sort, enumerate the `C(n, m)` space-joined combinations.
Records `_nPasswords` and `_nToUnlock` first, as the JS does.  Returns
`none` for `nToUnlock = 0` (JS: `prefix` is still `null` at a leaf, and
`null.replace` throws a TypeError). -/
def makeCombinedPasswords (st : KBState) (passwords : List String)
    (nToUnlock : Nat) : Option (List String) × KBState :=
  let st1 := {st with nPasswords := passwords.length, nToUnlock := nToUnlock}
  let sorted := sortStrings (passwords.map normalizeString)
  if nToUnlock = 0 then (none, st1)
  else (some (combine sorted nToUnlock "" 0), st1)

/-- Embeds `keybearer.makeKeyCombinations(passwords, nToUnlock)`: clear `_keys`,
then derive one key per combination (the progress callback is an observable
side effect with no bearing on the result and is omitted).  A TypeError from
`makeCombinedPasswords` propagates (`none`) with `_keys` left cleared. -/
def makeKeyCombinations (st : KBState) (passwords : List String)
    (nToUnlock : Nat) : Option (List Bytes) × KBState :=
  let st1 := {st with keys := ([] : List Bytes)}
  match makeCombinedPasswords st1 passwords nToUnlock with
  | (none, st2) => (none, st2)
  | (some combos, st2) =>
    let ks := combos.map (makeKeyFromPassword st2)
    (some ks, {st2 with keys := ks})

/-- Embeds `keybearer.makeAESKey()`: generate the master key. -/
def makeAESKey (st : KBState) (g : RNG) : KBState × RNG :=
  let (k, g1) := noble.getRandomBytes aes_key_strength g
  ({st with master := some k}, g1)

/-- Embeds `keybearer.makeMetadataObject()`. -/
def makeMetadataObject (st : KBState) (g : RNG) : CipherObj × RNG :=
  let (nonce, g1) := noble.getRandomBytes 12 g
  ({ adata := ""
     iter := st.pbkdf2_iterations
     mode := aes_cipher_mode
     cipher := "chacha20"
     ts := 128
     ks := aes_key_strength * 8
     salt := st.salt
     iv := nonce
     v := some 2
     ct := none
     fn := st.filename
     ft := st.filetype
     nkeys := st.nPasswords
     nunlock := st.nToUnlock
     keys := [] }, g1)

/-- The loop body of `augmentWithEncryptedKeys`: seal the master key under
each derived key with a fresh 12-byte nonce, collecting `{iv, key}` pairs. -/
def wrapKeys : List Bytes → Bytes → RNG → List KeyIV × RNG
  | [], _, g => ([], g)
  | k :: rest, master, g =>
    let (nonce, g1) := noble.getRandomBytes 12 g
    let r := noble.encryptChaCha20Poly1305 k master nonce
    let (tail, g2) := wrapKeys rest master g1
    (⟨r.2, r.1⟩ :: tail, g2)

/-- Embeds `arr[i]`/`arr[j]` swap step of `keybearer.shuffle`. -/
def swapIdx {α : Type} (l : List α) (i j : Nat) : List α :=
  match l[i]?, l[j]? with
  | some a, some b => (l.set i b).set j a
  | _, _ => l

/-- The `while (--i)` loop of `keybearer.shuffle`: the argument is the
current index `i`; each step draws `j = randto(i + 1, 1)[0]` and swaps. -/
def shuffleAux {α : Type} : List α → RNG → Nat → List α × RNG
  | l, g, 0 => (l, g)
  | l, g, n + 1 =>
    let (js, g1) := noble.randomIntegers (n + 2) 1 g
    shuffleAux (swapIdx l (n + 1) (js.headD 0)) g1 n

/-- Embeds `keybearer.shuffle(arr)`: Fisher–Yates; an empty array is returned
untouched (the JS returns `false` then, leaving the array as is). -/
def shuffle {α : Type} (l : List α) (g : RNG) : List α × RNG :=
  match l.length with
  | 0 => (l, g)
  | n + 1 => shuffleAux l g n

/-- Embeds `keybearer.getCipherJSON()`: serialize `_cipherobj`.  Each byte field is
base64-encoded on the wire and decoded back on parse; since that codec is an
inverse pair the wire object is the field-by-field copy below.  `none` when
there is no cipher object or its `ct` was never filled (the JS would throw
encoding `null`). -/
def getCipherJSON (st : KBState) : Option CipherObj :=
  match st.cipherobj with
  | none => none
  | some c =>
    match c.ct with
    | none => none
    | some ct => some
      { v := c.v, mode := c.mode, cipher := c.cipher, ts := c.ts, ks := c.ks,
        iter := c.iter, adata := c.adata, fn := c.fn, ft := c.ft,
        nkeys := c.nkeys, nunlock := c.nunlock, salt := c.salt, iv := c.iv,
        ct := some ct, keys := c.keys }

/-- Embeds `keybearer.encryptPlaintext(pt)` (always v2): build metadata, seal the
plaintext under the master key, seal the master key under every derived key
(`augmentWithEncryptedKeys`), shuffle the wrapped-key array, serialize. -/
def encryptPlaintext (st : KBState) (pt : Option Bytes) (g : RNG) :
    Option CipherObj × KBState × RNG :=
  let (p, g1) := makeMetadataObject st g
  let ptxt := match pt with | some x => some x | none => st.plaintext
  match st.master, ptxt with
  | some master, some ptx =>
    let r := noble.encryptChaCha20Poly1305 master ptx p.iv
    let p1 := {p with ct := some r.1, iv := r.2}
    let (encKeys, g2) := wrapKeys st.keys master g1
    let (shuffled, g3) := shuffle encKeys g2
    let p2 := {p1 with keys := shuffled}
    let st2 := {st with cipherobj := some p2, lastMetadata := some p2}
    (getCipherJSON st2, st2, g3)
  | _, _ => (none, st, g1)

/-- Embeds `keybearer.encryptWithPasswords(passwords, nUnlock)`: derive all
combination keys, generate a master key, encrypt.  A TypeError from the
combination step propagates before any random byte is drawn. -/
def encryptWithPasswords (st : KBState) (passwords : List String)
    (nUnlock : Nat) (g : RNG) : Option CipherObj × KBState × RNG :=
  match makeKeyCombinations st passwords nUnlock with
  | (none, st1) => (none, st1, g)
  | (some _, st1) =>
    let (st2, g1) := makeAESKey st1 g
    encryptPlaintext st2 st2.plaintext g1

/-- Embeds `keybearer.setCipherJSON(data)`: parse the envelope (codec modelled as
the identity on decoded fields) and install salt, counts, file metadata,
iteration count and the cipher object. -/
def setCipherJSON (st : KBState) (e : CipherObj) : KBState :=
  {st with salt := e.salt, nPasswords := e.nkeys, nToUnlock := e.nunlock,
           filename := e.fn, filetype := e.ft, pbkdf2_iterations := e.iter,
           cipherobj := some e}

/-! ## Legacy adapter (`kb-legacy.js`) -/

/-- Embeds `isLegacyFormat(cipherobj)`: `!cipherobj.v || cipherobj.v === 1 ||
cipherobj.mode === 'ccm' || cipherobj.mode === 'ocb2'`.  JS `!v` is true
when `v` is absent *or* `0`. -/
def isLegacyFormat (c : CipherObj) : Bool :=
  (match c.v with | none => true | some n => n == 0) ||
  c.v == some 1 || c.mode == "ccm" || c.mode == "ocb2"

/-- Modelled from the spec: the legacy SJCL CCM/OCB2 open
(`sjcl.mode[mode].decrypt`; SJCL is not part of this repository).  Spec
§4.3: the legacy path "substitutes the legacy AEAD primitive" behind the
same fails-closed contract, so it is the idealized AEAD open; `adata`/`ts`
are passed through as the JS does. -/
def legacyModeDecrypt (key : Bytes) (ct : noble.AEADCt) (iv : Bytes)
    (_adata : String) (_ts : Nat) : Option Bytes :=
  noble.aeadOpen key ct iv

/-- Embeds `decryptKeyLegacy(cipherobj, key, keyiv)`: try/catch wrapper returning
`null` (here `none`) when the open throws. -/
def decryptKeyLegacy (c : CipherObj) (key : Bytes) (keyiv : KeyIV) :
    Option Bytes :=
  legacyModeDecrypt key keyiv.key keyiv.iv c.adata c.ts

/-- Embeds `decryptLegacy(cipherobj, key)`: legacy payload open (throws on
failure, modelled as `none`). -/
def decryptLegacy (c : CipherObj) (key : Bytes) : Option Bytes :=
  match c.ct with
  | none => none
  | some ct => legacyModeDecrypt key ct c.iv c.adata c.ts

/-! ## Master-key trial decryption (`kb.js` `decryptKeys`) -/

/-- The inner `for (j ...)` loop of `decryptKeys` for one derived key: try
each wrapped-key entry, stop at the first that authenticates.  Also counts
the AEAD open attempts actually performed. -/
def tryEntries (k : Bytes) : List KeyIV → Option Bytes × Nat
  | [] => (none, 0)
  | e :: rest =>
    match noble.decryptChaCha20Poly1305 k e.key e.iv with
    | some m => (some m, 1)
    | none =>
      let (r, c) := tryEntries k rest
      (r, c + 1)

/-- The outer `for (i ...)` loop of `decryptKeys` over the derived keys. -/
def tryAllKeys : List Bytes → List KeyIV → Option Bytes × Nat
  | [], _ => (none, 0)
  | k :: ks, entries =>
    match tryEntries k entries with
    | (some m, c) => (some m, c)
    | (none, c) =>
      let (r, c2) := tryAllKeys ks entries
      (r, c + c2)

/-- The legacy loop body (`decryptKeysLegacy` inner loop), using the
legacy open; `if (master)` is the JS truthiness test on `null`-or-bitArray,
i.e. `Option.isSome`. -/
def tryEntriesLegacy (c : CipherObj) (k : Bytes) : List KeyIV → Option Bytes × Nat
  | [] => (none, 0)
  | e :: rest =>
    match decryptKeyLegacy c k e with
    | some m => (some m, 1)
    | none =>
      let (r, cnt) := tryEntriesLegacy c k rest
      (r, cnt + 1)

/-- The outer loop of `decryptKeysLegacy`. -/
def tryAllKeysLegacy (c : CipherObj) : List Bytes → List KeyIV → Option Bytes × Nat
  | [], _ => (none, 0)
  | k :: ks, entries =>
    match tryEntriesLegacy c k entries with
    | (some m, cnt) => (some m, cnt)
    | (none, cnt) =>
      let (r, cnt2) := tryAllKeysLegacy c ks entries
      (r, cnt + cnt2)

/-- Embeds `keybearer.decryptKeys()`: dispatch to the legacy loop when SJCL is
loaded and the envelope is legacy, else run the v2 loop; adopt the master
key recovered from the first authenticating entry (`_master` is assigned
only when an open succeeds — a thrown failure aborts the assignment).
Absent `_cipherobj` the JS throws; all callers parse an envelope first, so
that case is modelled as failure. -/
def decryptKeys (st : KBState) : Bool × KBState :=
  match st.cipherobj with
  | none => (false, st)
  | some c =>
    if sjclDefined && isLegacyFormat c then
      match (tryAllKeysLegacy c st.keys c.keys).1 with
      | some m => (true, {st with master := some m})
      | none => (false, st)
    else
      match (tryAllKeys st.keys c.keys).1 with
      | some m => (true, {st with master := some m})
      | none => (false, st)

/-- Embeds `keybearer.decryptCiphertext()`: open the payload under the recovered
master key (legacy or v2 path); the JS throws on failure (`none`). -/
def decryptCiphertext (st : KBState) : Option KBState :=
  match st.cipherobj, st.master with
  | some c, some master =>
    if sjclDefined && isLegacyFormat c then
      (decryptLegacy c master).map (fun pt => {st with plaintext := some pt})
    else
      match c.ct with
      | none => none
      | some ct =>
        (noble.decryptChaCha20Poly1305 master ct c.iv).map
          (fun pt => {st with plaintext := some pt})
  | _, _ => none

/-! ## Decryption flow of the UI controller (`kbpage-v2.js`) -/

/-- Result of `kbp.getMDecPass`: the password list handed to the engine and
whether the insufficient-passwords alert fired. -/
structure MDecResult where
  passwords : List String
  insufficientAlerted : Bool
deriving DecidableEq

/-- Embeds `kbp.getMDecPass(n, m)`: normalize each entered field, keep the
non-blank ones; if fewer than `m` remain, alert and return them as they
are; otherwise shuffle, keep the first `m`, and sort.  The form fields are
the `fields` list. -/
def getMDecPass (fields : List String) (m : Nat) (g : RNG) :
    MDecResult × RNG :=
  let pws := (fields.map normalizeString).filter (fun s => 0 < s.length)
  if pws.length < m then (⟨pws, true⟩, g)
  else
    let (sh, g1) := shuffle pws g
    (⟨sortStrings (sh.take m), false⟩, g1)

/-- Observable outcome of `kbp.decrypt()`. -/
inductive DecOutcome where
  | notReady
  | wrongPasscodes
  | success (pt : Bytes)
  | decryptError
deriving DecidableEq

/-- Trace of one `kbp.decrypt()` run: the alert state, the derived keys,
the number of wrapped-key AEAD open attempts performed, the outcome, and
the final engine state. -/
structure DecryptRun where
  insufficientAlerted : Bool
  derivedKeys : List Bytes
  trials : Nat
  outcome : DecOutcome
  state : KBState

/-- The number of wrapped-key open attempts `decryptKeys` performs. -/
def decryptTrials (st : KBState) : Nat :=
  match st.cipherobj with
  | none => 0
  | some c =>
    if sjclDefined && isLegacyFormat c then (tryAllKeysLegacy c st.keys c.keys).2
    else (tryAllKeys st.keys c.keys).2

/-- Embeds `kbp.decrypt()`: guard on a loaded cipher object, collect `m` passwords
via `getMDecPass`, derive keys with `makeKeyCombinations`, recover the
master key with `decryptKeys` (alerting "check the passcodes" on failure),
then open the payload.  Exceptions anywhere are caught by the surrounding
try/catch (`decryptError`). -/
def kbpDecrypt (st : KBState) (fields : List String) (g : RNG) : DecryptRun :=
  match st.cipherobj with
  | none => ⟨false, st.keys, 0, .notReady, st⟩
  | some _ =>
    let m := st.nToUnlock
    let (r, _g1) := getMDecPass fields m g
    match makeKeyCombinations st r.passwords m with
    | (none, st1) => ⟨r.insufficientAlerted, st1.keys, 0, .decryptError, st1⟩
    | (some _, st1) =>
      let (got, st2) := decryptKeys st1
      if got then
        match decryptCiphertext st2 with
        | some st3 =>
          ⟨r.insufficientAlerted, st1.keys, decryptTrials st1,
            .success (st3.plaintext.getD []), st3⟩
        | none =>
          ⟨r.insufficientAlerted, st1.keys, decryptTrials st1, .decryptError, st2⟩
      else
        ⟨r.insufficientAlerted, st1.keys, decryptTrials st1, .wrongPasscodes, st2⟩

/-! ## Spec-side definitions (for refinement statements) -/

/-- Spec notion of a Combination (§3): the space-joined string of a
password list. -/
def spaceJoin : List String → String
  | [] => ""
  | [x] => x
  | x :: y :: ys => x ++ " " ++ spaceJoin (y :: ys)

/-! ## Order properties of the sort comparison -/

theorem charListLe_total : ∀ a b : List Char,
    charListLe a b = true ∨ charListLe b a = true
  | [], _ => Or.inl rfl
  | _ :: _, [] => Or.inr rfl
  | a :: as, b :: bs => by
    rcases Nat.lt_trichotomy a.toNat b.toNat with h | h | h
    · left; simp [charListLe, h]
    · rcases charListLe_total as bs with ih | ih
      · left; simp [charListLe, h, ih]
      · right; simp [charListLe, h.symm, ih]
    · right; simp [charListLe, h]

theorem charListLe_trans : ∀ a b c : List Char,
    charListLe a b = true → charListLe b c = true → charListLe a c = true
  | [], _, _, _, _ => rfl
  | _ :: _, [], _, hab, _ => by simp [charListLe] at hab
  | _ :: _, _ :: _, [], _, hbc => by simp [charListLe] at hbc
  | a :: as, b :: bs, c :: cs, hab, hbc => by
    simp only [charListLe] at hab hbc ⊢
    rcases Nat.lt_trichotomy a.toNat b.toNat with h1 | h1 | h1
    · rcases Nat.lt_trichotomy b.toNat c.toNat with h2 | h2 | h2
      · simp [Nat.lt_trans h1 h2]
      · simp [h2 ▸ h1]
      · simp [h2, Nat.lt_asymm h2] at hbc
    · rcases Nat.lt_trichotomy b.toNat c.toNat with h2 | h2 | h2
      · simp [h1 ▸ h2]
      · simp only [h1, h2, lt_self_iff_false, if_false] at hab hbc ⊢
        exact charListLe_trans as bs cs hab hbc
      · simp [h2, Nat.lt_asymm h2] at hbc
    · simp [h1, Nat.lt_asymm h1] at hab

theorem charListLe_antisymm : ∀ a b : List Char,
    charListLe a b = true → charListLe b a = true → a = b
  | [], [], _, _ => rfl
  | [], _ :: _, _, hba => by simp [charListLe] at hba
  | _ :: _, [], hab, _ => by simp [charListLe] at hab
  | a :: as, b :: bs, hab, hba => by
    simp only [charListLe] at hab hba
    rcases Nat.lt_trichotomy a.toNat b.toNat with h | h | h
    · simp [h, Nat.lt_asymm h] at hba
    · have ha : a = b := Char.ext (UInt32.ext h)
      rw [h] at hab hba
      simp only [lt_irrefl, if_false] at hab hba
      rw [charListLe_antisymm as bs hab hba, ha]
    · simp [h, Nat.lt_asymm h] at hab

instance : IsTotal String StrLe :=
  ⟨fun a b => charListLe_total a.data b.data⟩

instance : IsTrans String StrLe :=
  ⟨fun a b c => charListLe_trans a.data b.data c.data⟩

theorem string_eq_of_data_eq {a b : String} (h : a.data = b.data) : a = b := by
  cases a; cases b; cases h; rfl

instance : IsAntisymm String StrLe :=
  ⟨fun a b hab hba => string_eq_of_data_eq (charListLe_antisymm a.data b.data hab hba)⟩

theorem sortStrings_perm (l : List String) : List.Perm (sortStrings l) l :=
  List.perm_insertionSort StrLe l

theorem sortStrings_sorted (l : List String) : (sortStrings l).Sorted StrLe :=
  List.sorted_insertionSort StrLe l

/-- Sorting is invariant under permutation of the input: there is only one
sorted arrangement of a multiset under a total antisymmetric order. -/
theorem sortStrings_eq_of_perm {l l' : List String} (h : List.Perm l l') :
    sortStrings l = sortStrings l' :=
  List.eq_of_perm_of_sorted
    (((sortStrings_perm l).trans h).trans (sortStrings_perm l').symm)
    (sortStrings_sorted l) (sortStrings_sorted l')

theorem sortStrings_length (l : List String) :
    (sortStrings l).length = l.length :=
  (sortStrings_perm l).length_eq

/-! ## Properties of the combination enumeration -/

/-- The accumulator of the JS `combine` recursion: successive
`[prefix, p].join(' ')` steps are a left fold. -/
def joinAll (pfx : String) (l : List String) : String :=
  l.foldl (fun a q => a ++ " " ++ q) pfx

theorem joinAll_append : ∀ (l : List String) (p : String),
    joinAll p l = p ++ joinAll "" l
  | [], p => (String.append_empty p).symm
  | x :: xs, p => by
    show joinAll (p ++ " " ++ x) xs = p ++ joinAll ("" ++ " " ++ x) xs
    rw [joinAll_append xs (p ++ " " ++ x), joinAll_append xs ("" ++ " " ++ x)]
    simp [String.append_assoc, String.empty_append]

theorem joinAll_spaceJoin : ∀ (x : String) (xs : List String),
    joinAll "" (x :: xs) = " " ++ spaceJoin (x :: xs)
  | x, [] => by
    show joinAll ("" ++ " " ++ x) [] = " " ++ x
    simp [joinAll, String.empty_append]
  | x, y :: ys => by
    show joinAll ("" ++ " " ++ x) (y :: ys) = " " ++ spaceJoin (x :: y :: ys)
    rw [joinAll_append, joinAll_spaceJoin y ys]
    show "" ++ " " ++ x ++ (" " ++ spaceJoin (y :: ys)) =
      " " ++ (x ++ " " ++ spaceJoin (y :: ys))
    simp [String.append_assoc, String.empty_append]

theorem removeFirstSpace_space (s : String) : removeFirstSpace (" " ++ s) = s := by
  apply string_eq_of_data_eq
  have h : (" " ++ s).data = ' ' :: s.data := by simp [String.data_append]
  show removeFirstChar ' ' (" " ++ s).data = s.data
  rw [h]
  simp [removeFirstChar]

/-- The space-stripped fold over a nonempty list is the spec-side
space-joined string. -/
theorem removeFirstSpace_joinAll (x : String) (xs : List String) :
    removeFirstSpace (joinAll "" (x :: xs)) = spaceJoin (x :: xs) := by
  rw [joinAll_spaceJoin, removeFirstSpace_space]

/-- Counting: `combine` produces exactly `C(remaining, l)` strings: the loop recursion
satisfies Pascal's rule. -/
theorem combine_length (ps : List String) (l : Nat) : ∀ (k s : Nat) (p : String),
    ps.length - s = k → (combine ps l p s).length = k.choose l := by
  induction l with
  | zero => intro k s p _; simp [combine]
  | succ l ihl =>
    intro k
    induction k with
    | zero =>
      intro s p hk
      simp [combine, hk, List.range']
    | succ k ihk =>
      intro s p hk
      have h1 : ps.length - (s + 1) = k := by omega
      simp only [combine, hk, List.range'_succ, List.flatMap_cons, List.length_append]
      rw [ihl k (s + 1) (p ++ " " ++ ps.getD s "") h1]
      have h2 : ((List.range' (s + 1) k).flatMap
          (fun i => combine ps l (p ++ " " ++ ps.getD i "") (i + 1))).length =
          (combine ps (l + 1) p (s + 1)).length := by
        simp only [combine, h1]
      rw [h2, ihk (s + 1) p h1]
      exact (Nat.choose_succ_succ k l).symm

/-- Fewer remaining passwords than slots: no combination is produced. -/
theorem combine_eq_nil (ps : List String) (l s : Nat) (p : String)
    (h : ps.length - s < l) : combine ps l p s = [] :=
  List.eq_nil_of_length_eq_zero
    ((combine_length ps l _ s p rfl).trans (Nat.choose_eq_zero_of_lt h))

/-- When the slots exactly use up the remaining passwords there is a single
combination: the join of all of them. -/
theorem combine_exact (ps : List String) : ∀ (l s : Nat) (p : String),
    ps.length - s = l →
    combine ps l p s = [removeFirstSpace (joinAll p (ps.drop s))] := by
  intro l
  induction l with
  | zero =>
    intro s p h
    rw [combine, List.drop_eq_nil_of_le (by omega)]
    rfl
  | succ l ih =>
    intro s p h
    have hs : s < ps.length := by omega
    have h1 : ps.length - (s + 1) = l := by omega
    simp only [combine, h, List.range'_succ, List.flatMap_cons]
    have hrest : (List.range' (s + 1) l).flatMap
        (fun i => combine ps l (p ++ " " ++ ps.getD i "") (i + 1)) = [] := by
      rw [List.flatMap_eq_nil_iff]
      intro i hi
      obtain ⟨hi1, hi2⟩ := List.mem_range'_1.mp hi
      exact combine_eq_nil ps l (i + 1) _ (by omega)
    rw [hrest, List.append_nil, ih (s + 1) (p ++ " " ++ ps.getD s "") h1]
    rw [List.drop_eq_getElem_cons hs]
    show _ = [removeFirstSpace (joinAll (p ++ " " ++ ps[s]) (ps.drop (s + 1)))]
    rw [List.getD_eq_getElem ps "" hs]

/-- Soundness of the enumeration: any strictly increasing list of in-range
indices starting at or after `start` contributes its joined selection. -/
theorem combine_mem (ps : List String) : ∀ (idxs : List Nat) (s : Nat) (p : String),
    List.Chain' (· < ·) idxs → (∀ i ∈ idxs, i < ps.length) →
    (∀ i ∈ idxs.head?, s ≤ i) →
    removeFirstSpace (joinAll p (idxs.map (fun i => ps.getD i ""))) ∈
      combine ps idxs.length p s
  | [], s, p, _, _, _ => by simp [combine, joinAll]
  | i :: rest, s, p, hchain, hbound, hhead => by
    have hi : i < ps.length := hbound i (List.mem_cons_self i rest)
    have hsi : s ≤ i := hhead i rfl
    show removeFirstSpace _ ∈ combine ps (rest.length + 1) p s
    simp only [combine, List.mem_flatMap]
    refine ⟨i, List.mem_range'_1.mpr ⟨hsi, by omega⟩, ?_⟩
    have hstep : (i :: rest).map (fun j => ps.getD j "") =
        ps.getD i "" :: rest.map (fun j => ps.getD j "") := rfl
    rw [hstep]
    show removeFirstSpace (joinAll (p ++ " " ++ ps.getD i "") (rest.map _)) ∈ _
    obtain ⟨hh, hc⟩ := List.chain'_cons'.mp hchain
    exact combine_mem ps rest (i + 1) (p ++ " " ++ ps.getD i "") hc
      (fun j hj => hbound j (List.mem_cons_of_mem i hj))
      (fun j hj => by
        have := hh j hj
        omega)

/-- Every sublist is realized by a strictly increasing list of indices. -/
theorem sublist_exists_indices : ∀ {sub ps : List String}, sub.Sublist ps →
    ∃ idxs : List Nat, idxs.length = sub.length ∧ List.Chain' (· < ·) idxs ∧
      (∀ i ∈ idxs, i < ps.length) ∧ idxs.map (fun i => ps.getD i "") = sub := by
  intro sub ps h
  induction h with
  | slnil => exact ⟨[], rfl, List.chain'_nil, by simp, rfl⟩
  | @cons l₁ l₂ a _ ih =>
    obtain ⟨idxs, hlen, hchain, hbound, hmap⟩ := ih
    refine ⟨idxs.map (· + 1), by simp [hlen], ?_, ?_, ?_⟩
    · rw [List.chain'_map]
      exact hchain.imp (fun a b hab => by omega)
    · intro i hi
      obtain ⟨j, hj, rfl⟩ := List.mem_map.mp hi
      exact Nat.succ_lt_succ (hbound j hj)
    · rw [List.map_map]
      rw [← hmap]
      apply List.map_congr_left
      intro j _
      simp [List.getD_cons_succ]
  | @cons₂ l₁ l₂ a _ ih =>
    obtain ⟨idxs, hlen, hchain, hbound, hmap⟩ := ih
    refine ⟨0 :: idxs.map (· + 1), by simp [hlen], ?_, ?_, ?_⟩
    · rw [List.chain'_cons']
      constructor
      · intro j hj
        rw [List.head?_map] at hj
        obtain ⟨i0, _, rfl⟩ := Option.map_eq_some'.mp hj
        omega
      · rw [List.chain'_map]
        exact hchain.imp (fun a b hab => by omega)
    · intro i hi
      rcases List.mem_cons.mp hi with rfl | hi
      · simp
      · obtain ⟨j, hj, rfl⟩ := List.mem_map.mp hi
        exact Nat.succ_lt_succ (hbound j hj)
    · simp only [List.map_cons, List.getD_cons_zero, List.map_map]
      rw [← hmap]
      congr 1

/-- Fact: `Subperm` is preserved by `map`. -/
theorem subperm_map (f : String → String) {l₁ l₂ : List String}
    (h : l₁.Subperm l₂) : (l₁.map f).Subperm (l₂.map f) := by
  obtain ⟨l, hp, hs⟩ := h
  exact ⟨l.map f, hp.map f, hs.map f⟩

/-- Key membership fact behind the round trip: the canonical combination of
any `m`-subset of the password set occurs among the `C(n, m)` combinations
enumerated at encryption time. -/
theorem supplied_combo_mem (passwords supplied : List String) (m : Nat)
    (hsub : supplied.Subperm passwords) (hlen : supplied.length = m) :
    removeFirstSpace (joinAll "" (sortStrings (supplied.map normalizeString))) ∈
      combine (sortStrings (passwords.map normalizeString)) m "" 0 := by
  set S := sortStrings (supplied.map normalizeString) with hS
  set P := sortStrings (passwords.map normalizeString) with hP
  have hsp : S.Subperm P := by
    have h1 : S.Subperm (supplied.map normalizeString) :=
      (sortStrings_perm _).subperm
    have h2 : (supplied.map normalizeString).Subperm (passwords.map normalizeString) :=
      subperm_map normalizeString hsub
    have h3 : (passwords.map normalizeString).Subperm P :=
      (sortStrings_perm _).symm.subperm
    exact (h1.trans h2).trans h3
  have hsl : S.Sublist P :=
    List.sublist_of_subperm_of_sorted hsp (sortStrings_sorted _) (sortStrings_sorted _)
  obtain ⟨idxs, hilen, hchain, hbound, hmap⟩ := sublist_exists_indices hsl
  have hm : idxs.length = m := by
    rw [hilen, hS, sortStrings_length, List.length_map, hlen]
  have := combine_mem P idxs 0 "" hchain hbound (fun i _ => Nat.zero_le i)
  rw [hmap, hm] at this
  exact this

/-! ## The Fisher–Yates shuffle permutes its input -/

theorem cons_set_perm {α : Type} : ∀ (xs : List α) (m : Nat) (x : α)
    (h : m < xs.length), List.Perm (xs[m] :: xs.set m x) (x :: xs)
  | [], m, x, h => by simp at h
  | y :: ys, 0, x, _ => by
    simpa using List.Perm.swap x y ys
  | y :: ys, m + 1, x, h => by
    have hm : m < ys.length := by simpa using h
    calc (y :: ys)[m + 1] :: (y :: ys).set (m + 1) x
        = ys[m] :: y :: ys.set m x := by simp
      _ ~ y :: ys[m] :: ys.set m x := List.Perm.swap _ _ _
      _ ~ y :: x :: ys := (cons_set_perm ys m x hm).cons y
      _ ~ x :: y :: ys := List.Perm.swap _ _ _

theorem set_set_perm {α : Type} : ∀ (l : List α) (i j : Nat)
    (hi : i < l.length) (hj : j < l.length),
    List.Perm ((l.set i (l[j])).set j (l[i])) l
  | [], i, j, hi, _ => by simp at hi
  | x :: xs, 0, 0, _, _ => by simp
  | x :: xs, 0, k + 1, _, hj => by
    have hk : k < xs.length := by simpa using hj
    have h1 : ((x :: xs).set 0 ((x :: xs)[k + 1])).set (k + 1) x =
        xs[k] :: xs.set k x := by simp
    simp only [List.getElem_cons_zero]
    rw [h1]
    exact cons_set_perm xs k x hk
  | x :: xs, m + 1, 0, hi, _ => by
    have hm : m < xs.length := by simpa using hi
    have h1 : ((x :: xs).set (m + 1) x).set 0 ((x :: xs)[m + 1]) =
        xs[m] :: xs.set m x := by simp
    simp only [List.getElem_cons_zero]
    rw [h1]
    exact cons_set_perm xs m x hm
  | x :: xs, m + 1, k + 1, hi, hj => by
    have hm : m < xs.length := by simpa using hi
    have hk : k < xs.length := by simpa using hj
    have h1 : ((x :: xs).set (m + 1) ((x :: xs)[k + 1])).set (k + 1)
        ((x :: xs)[m + 1]) = x :: (xs.set m (xs[k])).set k (xs[m]) := by
      simp
    rw [h1]
    exact (set_set_perm xs m k hm hk).cons x

theorem swapIdx_perm {α : Type} (l : List α) (i j : Nat) :
    List.Perm (swapIdx l i j) l := by
  unfold swapIdx
  cases h1 : l[i]? with
  | none => exact List.Perm.refl l
  | some a =>
    cases h2 : l[j]? with
    | none => exact List.Perm.refl l
    | some b =>
      obtain ⟨hi, ha⟩ := List.getElem?_eq_some.mp h1
      obtain ⟨hj, hb⟩ := List.getElem?_eq_some.mp h2
      subst ha
      subst hb
      exact set_set_perm l i j hi hj

theorem shuffleAux_perm {α : Type} : ∀ (n : Nat) (l : List α) (g : RNG),
    List.Perm (shuffleAux l g n).1 l
  | 0, l, g => List.Perm.refl l
  | n + 1, l, g => by
    unfold shuffleAux
    exact (shuffleAux_perm n _ _).trans (swapIdx_perm l (n + 1) _)

/-- Fact: `keybearer.shuffle` returns a permutation of its input. -/
theorem shuffle_perm {α : Type} (l : List α) (g : RNG) :
    List.Perm (shuffle l g).1 l := by
  unfold shuffle
  cases hl : l.length with
  | zero => exact List.Perm.refl l
  | succ n => exact shuffleAux_perm n l g

theorem shuffle_length {α : Type} (l : List α) (g : RNG) :
    (shuffle l g).1.length = l.length :=
  (shuffle_perm l g).length_eq

/-! ## Properties of the trial-decryption loops -/

/-- The inner loop is first-success search over the entries, in order. -/
theorem tryEntries_eq_findSome (k : Bytes) : ∀ entries : List KeyIV,
    (tryEntries k entries).1 =
      entries.findSome? (fun e => noble.decryptChaCha20Poly1305 k e.key e.iv)
  | [] => rfl
  | e :: rest => by
    simp only [tryEntries, List.findSome?_cons]
    cases noble.decryptChaCha20Poly1305 k e.key e.iv with
    | none => exact tryEntries_eq_findSome k rest
    | some m => rfl

/-- The nested loop of `decryptKeys` is first-success search over all
(key, entry) pairs in scan order: a failed open never aborts it. -/
theorem tryAllKeys_eq_findSome : ∀ (keys : List Bytes) (entries : List KeyIV),
    (tryAllKeys keys entries).1 =
      keys.findSome? (fun k =>
        entries.findSome? (fun e => noble.decryptChaCha20Poly1305 k e.key e.iv))
  | [], _ => rfl
  | k :: ks, entries => by
    have hinner := tryEntries_eq_findSome k entries
    rcases h : tryEntries k entries with ⟨fst, cnt⟩
    rw [List.findSome?_cons, ← hinner, h]
    cases fst with
    | none =>
      simp only [tryAllKeys, h]
      simpa using tryAllKeys_eq_findSome ks entries
    | some m =>
      simp [tryAllKeys, h]

/-- The loop reports failure exactly when no wrapped-key entry opens under
any derived key. -/
theorem tryAllKeys_none_iff (keys : List Bytes) (entries : List KeyIV) :
    (tryAllKeys keys entries).1 = none ↔
      ∀ k ∈ keys, ∀ e ∈ entries, noble.decryptChaCha20Poly1305 k e.key e.iv = none := by
  rw [tryAllKeys_eq_findSome, List.findSome?_eq_none_iff]
  constructor
  · intro h k hk e he
    have := h k hk
    rw [List.findSome?_eq_none_iff] at this
    exact this e he
  · intro h k hk
    rw [List.findSome?_eq_none_iff]
    exact h k hk

/-- A successful open yields the sealed body. -/
theorem aeadOpen_some {key : Bytes} {ct : noble.AEADCt} {nonce : Bytes} {m : Bytes}
    (h : noble.aeadOpen key ct nonce = some m) : m = ct.body := by
  unfold noble.aeadOpen at h
  split at h
  · exact (Option.some_inj.mp h).symm
  · exact absurd h (by simp)

/-- When every entry wraps the same master key and some (key, entry) pair
authenticates, the loop recovers exactly that master key. -/
theorem tryAllKeys_success (keys : List Bytes) (entries : List KeyIV)
    (master : Bytes)
    (hbody : ∀ e ∈ entries, e.key.body = master)
    (hex : ∃ k ∈ keys, ∃ e ∈ entries,
      noble.decryptChaCha20Poly1305 k e.key e.iv ≠ none) :
    (tryAllKeys keys entries).1 = some master := by
  cases hres : (tryAllKeys keys entries).1 with
  | none =>
    obtain ⟨k, hk, e, he, hne⟩ := hex
    exact absurd ((tryAllKeys_none_iff keys entries).mp hres k hk e he) hne
  | some m =>
    have h1 := hres
    rw [tryAllKeys_eq_findSome] at h1
    obtain ⟨k, _, hk⟩ := List.exists_of_findSome?_eq_some h1
    obtain ⟨e, he, hopen⟩ := List.exists_of_findSome?_eq_some hk
    rw [aeadOpen_some hopen, hbody e he]

/-! ## Properties of the wrapped-key construction -/

theorem wrapKeys_forall (master : Bytes) : ∀ (keys : List Bytes) (g : RNG),
    ∀ e ∈ (wrapKeys keys master g).1,
      e.key.body = master ∧ e.key.tagNonce = e.iv ∧ e.key.tagKey ∈ keys
  | [], _, e, he => by simp [wrapKeys] at he
  | k :: rest, g, e, he => by
    simp only [wrapKeys, List.mem_cons] at he
    rcases he with rfl | he
    · exact ⟨rfl, rfl, List.mem_cons_self k rest⟩
    · obtain ⟨h1, h2, h3⟩ := wrapKeys_forall master rest _ e he
      exact ⟨h1, h2, List.mem_cons_of_mem k h3⟩

theorem wrapKeys_exists (master : Bytes) : ∀ (keys : List Bytes) (g : RNG)
    (k : Bytes), k ∈ keys → ∃ e ∈ (wrapKeys keys master g).1,
      e.key.tagKey = k ∧ e.key.tagNonce = e.iv
  | [], _, k, hk => by simp at hk
  | k0 :: rest, g, k, hk => by
    rcases List.mem_cons.mp hk with rfl | hk
    · exact ⟨_, List.mem_cons_self _ _, rfl, rfl⟩
    · obtain ⟨e, he, h1, h2⟩ := wrapKeys_exists master rest
        (noble.getRandomBytes 12 g).2 k hk
      exact ⟨e, List.mem_cons_of_mem _ he, h1, h2⟩

theorem wrapKeys_length (master : Bytes) : ∀ (keys : List Bytes) (g : RNG),
    (wrapKeys keys master g).1.length = keys.length
  | [], _ => rfl
  | k :: rest, g => by
    simp [wrapKeys, wrapKeys_length master rest]

/-! ## Characterization of the encryption pipeline

Derived (proved, not assumed) closed forms for the values `encryptWithPasswords`
computes, named for readability of the claim proofs. -/

/-- The combination list the engine enumerates for a password list. -/
def encCombos (passwords : List String) (m : Nat) : List String :=
  combine (sortStrings (passwords.map normalizeString)) m "" 0

/-- The derived-key list for those combinations. -/
def encDerivedKeys (st : KBState) (passwords : List String) (m : Nat) : List Bytes :=
  (encCombos passwords m).map
    (fun c => noble.deriveKeyFromPassword c st.salt st.pbkdf2_iterations aes_key_strength)

/-- The master key drawn by `makeAESKey`. -/
def encMasterKey (g : RNG) : Bytes := (noble.getRandomBytes aes_key_strength g).1

/-- The random source after the master key is drawn. -/
def encG1 (g : RNG) : RNG := (noble.getRandomBytes aes_key_strength g).2

/-- The payload nonce drawn by `makeMetadataObject`. -/
def encNonce (g : RNG) : Bytes := (noble.getRandomBytes 12 (encG1 g)).1

/-- The random source after the payload nonce. -/
def encG2 (g : RNG) : RNG := (noble.getRandomBytes 12 (encG1 g)).2

/-- The shuffled wrapped-key array of the envelope. -/
def encWrapped (st : KBState) (passwords : List String) (m : Nat) (g : RNG) :
    List KeyIV :=
  (shuffle (wrapKeys (encDerivedKeys st passwords m) (encMasterKey g) (encG2 g)).1
    (wrapKeys (encDerivedKeys st passwords m) (encMasterKey g) (encG2 g)).2).1

/-- The envelope `encryptWithPasswords` builds. -/
def encEnv (st : KBState) (passwords : List String) (m : Nat) (g : RNG)
    (pt : Bytes) : CipherObj :=
  ⟨"", st.pbkdf2_iterations, aes_cipher_mode, "chacha20", 128,
   aes_key_strength * 8, st.salt, encNonce g, some 2,
   some ⟨pt, encMasterKey g, encNonce g⟩, st.filename, st.filetype,
   passwords.length, m, encWrapped st passwords m g⟩

/-- Closed form of `makeKeyCombinations` when no TypeError occurs. -/
theorem makeKeyCombinations_eq (st : KBState) (passwords : List String)
    (m : Nat) (hm : m ≠ 0) :
    makeKeyCombinations st passwords m =
      (some ((encCombos passwords m).map (makeKeyFromPassword st)),
       {st with keys := (encCombos passwords m).map (makeKeyFromPassword st),
                nPasswords := passwords.length, nToUnlock := m}) := by
  simp only [makeKeyCombinations, makeCombinedPasswords, if_neg hm, encCombos]
  rfl

/-- Closed form of the envelope the encryption pipeline emits. -/
theorem encryptWithPasswords_fst (st : KBState) (g : RNG)
    (passwords : List String) (m : Nat) (pt : Bytes)
    (hm : m ≠ 0) (hpt : st.plaintext = some pt) :
    (encryptWithPasswords st passwords m g).1 = some (encEnv st passwords m g pt) := by
  simp only [encryptWithPasswords, makeKeyCombinations, makeCombinedPasswords,
    makeAESKey, encryptPlaintext, makeMetadataObject, getCipherJSON,
    makeKeyFromPassword, noble.encryptChaCha20Poly1305, hpt, if_neg hm,
    encEnv, encWrapped, encDerivedKeys, encCombos, encMasterKey, encG1,
    encNonce, encG2]
  rfl

/-- The pipeline emits an envelope only when `m ≠ 0` and a plaintext is
loaded. -/
theorem encrypt_some_inv (st : KBState) (g : RNG) (passwords : List String)
    (m : Nat) (env : CipherObj) (st' : KBState) (g' : RNG)
    (h : encryptWithPasswords st passwords m g = (some env, st', g')) :
    m ≠ 0 ∧ ∃ pt, st.plaintext = some pt := by
  constructor
  · rintro rfl
    simp [encryptWithPasswords, makeKeyCombinations, makeCombinedPasswords] at h
  · cases hpt : st.plaintext with
    | some pt => exact ⟨pt, rfl⟩
    | none =>
      exfalso
      by_cases hm : m = 0
      · subst hm
        simp [encryptWithPasswords, makeKeyCombinations,
          makeCombinedPasswords] at h
      · simp [encryptWithPasswords, makeKeyCombinations, makeCombinedPasswords,
          if_neg hm, makeAESKey, encryptPlaintext, makeMetadataObject, hpt] at h

/-! ## Concrete fixtures used by the witness theorems -/

/-- A state with a salt, a plaintext and file metadata loaded. -/
def stW : KBState :=
  ⟨[7, 3], 50, some [72, 105, 33], none, [], none, some "w.txt",
   some "text/plain", 0, 0, none⟩

/-- A concrete random tape. -/
def gW : RNG := ⟨fun n => n + 1, 0⟩

/-- A parsed v2 envelope with one wrapped key sealed under key `[2]`. -/
def cW : CipherObj :=
  ⟨"", 5, "chacha20poly1305", "chacha20", 128, 256, [6], [3], some 2,
   some ⟨[1, 2], [8], [3]⟩, none, none, 2, 1, [⟨[4], ⟨[7, 7], [2], [4]⟩⟩]⟩

/-- A state holding `cW` whose single derived key `[1]` opens nothing. -/
def stC : KBState :=
  ⟨[6], 5, none, some cW, [[1]], some [9, 9], none, none, 2, 1, none⟩

/-! ## The claims -/

/-- C2: for every password list of length N and every M with 1 ≤ M ≤ N,
the envelope built by `encryptWithPasswords(passwords, M)` contains a keys
array whose length equals the binomial coefficient C(N, M); this holds for
every envelope the engine builds. -/
theorem c2_wrapped_key_count (st : KBState) (g : RNG) (passwords : List String)
    (m : Nat) (env : CipherObj) (st' : KBState) (g' : RNG)
    (hm1 : 1 ≤ m) (hmn : m ≤ passwords.length)
    (henc : encryptWithPasswords st passwords m g = (some env, st', g')) :
    env.keys.length = Nat.choose passwords.length m := by
  obtain ⟨hm0, pt, hpt⟩ := encrypt_some_inv st g passwords m env st' g' henc
  have hfst := encryptWithPasswords_fst st g passwords m pt hm0 hpt
  have henv : env = encEnv st passwords m g pt :=
    Option.some.inj ((congrArg Prod.fst henc).symm.trans hfst)
  rw [henv]
  show (encWrapped st passwords m g).length = _
  unfold encWrapped
  rw [shuffle_length, wrapKeys_length, encDerivedKeys, List.length_map]
  unfold encCombos
  exact combine_length _ m passwords.length 0 ""
    (by rw [sortStrings_length, List.length_map]; omega)

/-- C2 witness: three passwords, threshold two, three wrapped keys. -/
theorem c2_wrapped_key_count_witness :
    (1 : Nat) ≤ 2 ∧ 2 ≤ (["alpha", "beta", "gamma"] : List String).length ∧
    (encEnv stW ["alpha", "beta", "gamma"] 2 gW [72, 105, 33]).keys.length =
      Nat.choose (["alpha", "beta", "gamma"] : List String).length 2 :=
  ⟨by decide, by decide,
   c2_wrapped_key_count stW gW ["alpha", "beta", "gamma"] 2
     (encEnv stW ["alpha", "beta", "gamma"] 2 gW [72, 105, 33])
     (encryptWithPasswords stW ["alpha", "beta", "gamma"] 2 gW).2.1
     (encryptWithPasswords stW ["alpha", "beta", "gamma"] 2 gW).2.2
     (by decide) (by decide) rfl⟩

/-- C3: for every list of passwords, every M, and every permutation of that
list, `makeCombinedPasswords` applied to the permuted list with the same M
returns the identical result, because inputs are normalized and sorted
before enumeration. -/
theorem c3_order_independence (st : KBState) (passwords passwords' : List String)
    (m : Nat) (hperm : List.Perm passwords passwords') :
    makeCombinedPasswords st passwords m = makeCombinedPasswords st passwords' m := by
  unfold makeCombinedPasswords
  rw [sortStrings_eq_of_perm (hperm.map normalizeString), hperm.length_eq]

/-- C3 witness: a transposed pair of passwords gives the same output. -/
theorem c3_order_independence_witness :
    List.Perm ["beta", "alpha"] ["alpha", "beta"] ∧
    makeCombinedPasswords stW ["beta", "alpha"] 1 =
      makeCombinedPasswords stW ["alpha", "beta"] 1 :=
  ⟨by decide, c3_order_independence stW ["beta", "alpha"] ["alpha", "beta"] 1 (by decide)⟩

/-- C4 counterexample: with two passwords and threshold three (M > N) the
encryption entry point is *not* rejected — it produces an envelope, so the
claim "rejected as a ConfigurationError before any cryptographic operation
runs, and no envelope is produced" is false as stated. -/
theorem c4_counterexample :
    ((encryptWithPasswords stW ["a", "b"] 3 gW).1).isSome = true := by decide

/-- C4 amended: for `m < 1` (i.e. `m = 0`) the call throws a TypeError
inside combination enumeration before any cryptographic operation (the
random source is untouched, no key is derived) and produces no envelope;
for `m > N` the call is not rejected: the cryptographic pipeline runs and
produces an envelope whose keys array is empty. -/
theorem c4_configuration_error_amended (st : KBState) (g : RNG)
    (passwords : List String) (m : Nat) :
    (m = 0 →
      encryptWithPasswords st passwords m g =
        (none, {st with keys := [], nPasswords := passwords.length,
                        nToUnlock := m}, g)) ∧
    (passwords.length < m → ∀ pt, st.plaintext = some pt →
      (encryptWithPasswords st passwords m g).1 = some (encEnv st passwords m g pt) ∧
      (encEnv st passwords m g pt).keys = []) := by
  constructor
  · rintro rfl
    simp [encryptWithPasswords, makeKeyCombinations, makeCombinedPasswords]
  · intro hlt pt hpt
    have hm0 : m ≠ 0 := by omega
    refine ⟨encryptWithPasswords_fst st g passwords m pt hm0 hpt, ?_⟩
    show encWrapped st passwords m g = []
    have hc : encCombos passwords m = [] := by
      unfold encCombos
      apply combine_eq_nil
      rw [sortStrings_length, List.length_map]
      omega
    unfold encWrapped encDerivedKeys
    rw [hc]
    rfl

/-- C4 witness for the amended claim: both regimes at concrete inputs. -/
theorem c4_configuration_error_amended_witness :
    encryptWithPasswords stW ["a", "b"] 0 gW =
      (none, {stW with keys := [], nPasswords := 2, nToUnlock := 0}, gW) ∧
    (encEnv stW ["a", "b"] 3 gW [72, 105, 33]).keys = [] :=
  ⟨(c4_configuration_error_amended stW gW ["a", "b"] 0).1 rfl,
   ((c4_configuration_error_amended stW gW ["a", "b"] 3).2 (by decide)
     [72, 105, 33] rfl).2⟩

/-- C7: for every list of exactly M (≥ 1) already-normalized passwords,
`makeCombinedPasswords(passwords, M)` returns exactly one Combination — the
sorted, space-joined string of those M passwords — and the decryption path
derives exactly one key, for that combination. -/
theorem c7_single_combination (st : KBState) (passwords : List String) (m : Nat)
    (hm : 0 < m) (hlen : passwords.length = m)
    (hnorm : ∀ p ∈ passwords, normalizeString p = p) :
    (makeCombinedPasswords st passwords m).1 =
      some [spaceJoin (sortStrings passwords)] ∧
    (makeKeyCombinations st passwords m).1 =
      some [makeKeyFromPassword st (spaceJoin (sortStrings passwords))] := by
  have hm0 : m ≠ 0 := by omega
  have hmap : passwords.map normalizeString = passwords :=
    (List.map_congr_left hnorm).trans (List.map_id passwords)
  have hsorted_len : (sortStrings passwords).length = m := by
    rw [sortStrings_length, hlen]
  have hcombo : combine (sortStrings passwords) m "" 0 =
      [removeFirstSpace (joinAll "" (sortStrings passwords))] := by
    simpa using combine_exact (sortStrings passwords) m 0 "" (by omega)
  obtain ⟨q, qs, hq⟩ : ∃ q qs, sortStrings passwords = q :: qs := by
    cases hsp : sortStrings passwords with
    | nil => rw [hsp] at hsorted_len; simp at hsorted_len; omega
    | cons q qs => exact ⟨q, qs, rfl⟩
  have hjoin : removeFirstSpace (joinAll "" (sortStrings passwords)) =
      spaceJoin (sortStrings passwords) := by
    rw [hq]; exact removeFirstSpace_joinAll q qs
  constructor
  · simp only [makeCombinedPasswords, if_neg hm0, hmap, hcombo, hjoin]
  · rw [makeKeyCombinations_eq st passwords m hm0]
    simp only [encCombos, hmap, hcombo, hjoin, List.map_cons, List.map_nil]

/-- C7 witness: two normalized passwords, threshold two. -/
theorem c7_single_combination_witness :
    (0 : Nat) < 2 ∧ (["beta", "alpha"] : List String).length = 2 ∧
    (makeCombinedPasswords stW ["beta", "alpha"] 2).1 =
      some [spaceJoin (sortStrings ["beta", "alpha"])] :=
  ⟨by decide, by decide,
   (c7_single_combination stW ["beta", "alpha"] 2 (by decide) (by decide)
     (by decide)).1⟩

/-- C9: every envelope produced by the encryption path carries format
version v = 2 and mode 'chacha20poly1305' and is never classified as legacy
by `isLegacyFormat`, for any inputs. -/
theorem c9_legacy_read_only (st : KBState) (g : RNG) (passwords : List String)
    (m : Nat) (env : CipherObj) (st' : KBState) (g' : RNG)
    (henc : encryptWithPasswords st passwords m g = (some env, st', g')) :
    env.v = some 2 ∧ env.mode = "chacha20poly1305" ∧ isLegacyFormat env = false := by
  obtain ⟨hm0, pt, hpt⟩ := encrypt_some_inv st g passwords m env st' g' henc
  have hfst := encryptWithPasswords_fst st g passwords m pt hm0 hpt
  have henv : env = encEnv st passwords m g pt :=
    Option.some.inj ((congrArg Prod.fst henc).symm.trans hfst)
  rw [henv]
  exact ⟨rfl, rfl, rfl⟩

/-- C9 witness: the concrete envelope built from the fixture inputs. -/
theorem c9_legacy_read_only_witness :
    (encEnv stW ["alpha", "beta"] 1 gW [72, 105, 33]).v = some 2 ∧
    (encEnv stW ["alpha", "beta"] 1 gW [72, 105, 33]).mode = "chacha20poly1305" ∧
    isLegacyFormat (encEnv stW ["alpha", "beta"] 1 gW [72, 105, 33]) = false :=
  c9_legacy_read_only stW gW ["alpha", "beta"] 1
    (encEnv stW ["alpha", "beta"] 1 gW [72, 105, 33])
    (encryptWithPasswords stW ["alpha", "beta"] 1 gW).2.1
    (encryptWithPasswords stW ["alpha", "beta"] 1 gW).2.2 rfl

/-- C8 counterexample: the claimed condition "absent or equals 1 or
deprecated mode" is not equivalent to `isLegacyFormat`: an envelope with
`v = 0` (a falsy but present version) and mode 'chacha20poly1305' is
classified legacy by the code although the claimed condition is false. -/
theorem c8_counterexample :
    ¬ (∀ c : CipherObj, isLegacyFormat c = true ↔
        (c.v = none ∨ c.v = some 1 ∨ c.mode = "ccm" ∨ c.mode = "ocb2")) :=
  fun h =>
    absurd ((h ⟨"", 1000, "chacha20poly1305", "chacha20", 128, 256, [], [],
      some 0, none, none, none, 2, 1, []⟩).mp (by decide)) (by decide)

/-- C8 amended: `isLegacyFormat` returns true exactly when the version
field is absent *or zero* or equals 1, or the declared mode is 'ccm' or
'ocb2' (JS `!cipherobj.v` treats a present `0` like an absent field); in
particular it returns false for a current envelope with v = 2 and mode
'chacha20poly1305'. -/
theorem c8_legacy_format_amended (c : CipherObj) :
    isLegacyFormat c = true ↔
      (c.v = none ∨ c.v = some 0 ∨ c.v = some 1 ∨
       c.mode = "ccm" ∨ c.mode = "ocb2") := by
  rcases c with ⟨adata, iter, mode, cipher, ts, ks, salt, iv, v, ct, fn, ft, nk, nu, keys⟩
  cases v with
  | none => simp [isLegacyFormat]
  | some n =>
    simp only [isLegacyFormat, Bool.or_eq_true, beq_iff_eq, Option.some_inj]
    constructor
    · rintro (((h | h) | h) | h)
      · exact Or.inr (Or.inl (by simpa using h))
      · exact Or.inr (Or.inr (Or.inl (by simpa using h)))
      · exact Or.inr (Or.inr (Or.inr (Or.inl h)))
      · exact Or.inr (Or.inr (Or.inr (Or.inr h)))
    · rintro (h | h | h | h | h)
      · exact absurd h (by simp)
      · exact Or.inl (Or.inl (Or.inl (by simpa using h)))
      · exact Or.inl (Or.inl (Or.inr (by simpa using h)))
      · exact Or.inl (Or.inr h)
      · exact Or.inr h

/-- C10: whenever `decryptKeys` (current or legacy path) returns false
because no wrapped-key entry authenticated, the stored master key
`keybearer._master` is left unchanged from its value before the call. -/
theorem c10_failure_atomicity (st : KBState)
    (hf : (decryptKeys st).1 = false) :
    (decryptKeys st).2.master = st.master := by
  cases hc : st.cipherobj with
  | none => simp [decryptKeys, hc]
  | some c =>
    by_cases hleg : (sjclDefined && isLegacyFormat c) = true
    · cases hres : (tryAllKeysLegacy c st.keys c.keys).1 with
      | none => simp [decryptKeys, hc, hleg, hres]
      | some mk =>
        rw [decryptKeys, hc] at hf
        simp [hleg, hres] at hf
    · cases hres : (tryAllKeys st.keys c.keys).1 with
      | none => simp [decryptKeys, hc, hleg, hres]
      | some mk =>
        rw [decryptKeys, hc] at hf
        simp [hleg, hres] at hf

/-- C10 witness: a failing trial over `cW` leaves the master key alone. -/
theorem c10_failure_atomicity_witness :
    (decryptKeys stC).1 = false ∧ (decryptKeys stC).2.master = stC.master :=
  ⟨by decide, c10_failure_atomicity stC (by decide)⟩

/-- C6: `decryptKeys` (v2 path) attempts to AEAD-open each wrapped-key
entry with each derived key in scan order (first-success search, so a
failed open never aborts the loop), adopts the master key recovered from
the first entry that authenticates, and returns false if and only if no
wrapped-key entry authenticates under any derived key. -/
theorem c6_trial_loop (st : KBState) (c : CipherObj)
    (hc : st.cipherobj = some c) (hleg : isLegacyFormat c = false) :
    ((decryptKeys st).1 = false ↔
      ∀ k ∈ st.keys, ∀ e ∈ c.keys,
        noble.decryptChaCha20Poly1305 k e.key e.iv = none) ∧
    ((tryAllKeys st.keys c.keys).1 =
      st.keys.findSome? (fun k => c.keys.findSome?
        (fun e => noble.decryptChaCha20Poly1305 k e.key e.iv))) ∧
    (∀ mk, (tryAllKeys st.keys c.keys).1 = some mk →
      (decryptKeys st).1 = true ∧ (decryptKeys st).2.master = some mk) := by
  have hbranch : (sjclDefined && isLegacyFormat c) = false := by
    rw [hleg]; rfl
  refine ⟨?_, tryAllKeys_eq_findSome st.keys c.keys, ?_⟩
  · constructor
    · intro hf
      rw [← tryAllKeys_none_iff]
      cases hres : (tryAllKeys st.keys c.keys).1 with
      | none => rfl
      | some mk =>
        rw [decryptKeys, hc] at hf
        simp [hbranch, hres] at hf
    · intro hall
      have hres := (tryAllKeys_none_iff _ _).mpr hall
      simp [decryptKeys, hc, hbranch, hres]
  · intro mk hres
    constructor
    · simp [decryptKeys, hc, hbranch, hres]
    · simp [decryptKeys, hc, hbranch, hres]

/-- C6 witness: the fixture's single key opens no entry, and the loop
reports exactly that. -/
theorem c6_trial_loop_witness :
    stC.cipherobj = some cW ∧ isLegacyFormat cW = false ∧
    ((decryptKeys stC).1 = false ↔
      ∀ k ∈ stC.keys, ∀ e ∈ cW.keys,
        noble.decryptChaCha20Poly1305 k e.key e.iv = none) :=
  ⟨rfl, by decide, (c6_trial_loop stC cW rfl (by decide)).1⟩

/-- C5: whenever fewer than M (the envelope's `nunlock`, as installed in
`_nToUnlock`) non-blank passwords are supplied at decryption, the
insufficient-passwords alert fires, no key is derived, no wrapped-key open
is attempted (zero trials), the run reports wrong passcodes, and the master
key is untouched. -/
theorem c5_insufficient_passwords (st : KBState) (c : CipherObj)
    (fields : List String) (g : RNG)
    (hc : st.cipherobj = some c)
    (hfew : ((fields.map normalizeString).filter
        (fun s => 0 < s.length)).length < st.nToUnlock) :
    kbpDecrypt st fields g =
      ⟨true, [], 0, DecOutcome.wrongPasscodes,
       {st with keys := ([] : List Bytes),
                nPasswords := ((fields.map normalizeString).filter
                  (fun s => 0 < s.length)).length,
                nToUnlock := st.nToUnlock}⟩ ∧
    (kbpDecrypt st fields g).state.master = st.master := by
  have hm0 : st.nToUnlock ≠ 0 := by omega
  have hget : getMDecPass fields st.nToUnlock g =
      (⟨(fields.map normalizeString).filter (fun s => 0 < s.length), true⟩, g) := by
    rw [getMDecPass, if_pos hfew]
  have hcombos : encCombos ((fields.map normalizeString).filter
      (fun s => 0 < s.length)) st.nToUnlock = [] := by
    unfold encCombos
    apply combine_eq_nil
    rw [sortStrings_length, List.length_map]
    omega
  have hmkc := makeKeyCombinations_eq st
    ((fields.map normalizeString).filter (fun s => 0 < s.length))
    st.nToUnlock hm0
  rw [hcombos, List.map_nil] at hmkc
  have hdec :
      decryptKeys
        {st with
          keys := ([] : List Bytes),
          nPasswords := ((fields.map normalizeString).filter
            (fun s => 0 < s.length)).length,
          nToUnlock := st.nToUnlock} =
      (false,
        {st with
          keys := ([] : List Bytes),
          nPasswords := ((fields.map normalizeString).filter
            (fun s => 0 < s.length)).length,
          nToUnlock := st.nToUnlock}) := by
    by_cases hleg : (sjclDefined && isLegacyFormat c) = true
    · simp [decryptKeys, hc, hleg, tryAllKeysLegacy]
    · simp [decryptKeys, hc, hleg, tryAllKeys]
  have htr :
      decryptTrials
        {st with
          keys := ([] : List Bytes),
          nPasswords := ((fields.map normalizeString).filter
            (fun s => 0 < s.length)).length,
          nToUnlock := st.nToUnlock} = 0 := by
    by_cases hleg : (sjclDefined && isLegacyFormat c) = true
    · simp [decryptTrials, hc, hleg, tryAllKeysLegacy]
    · simp [decryptTrials, hc, hleg, tryAllKeys]
  have hrun : kbpDecrypt st fields g =
      ⟨true, [], 0, DecOutcome.wrongPasscodes,
       {st with keys := ([] : List Bytes),
                nPasswords := ((fields.map normalizeString).filter
                  (fun s => 0 < s.length)).length,
                nToUnlock := st.nToUnlock}⟩ := by
    rw [kbpDecrypt, hc]
    simp only [hget, hmkc, hdec, htr]
    simp [hc]
  exact ⟨hrun, by rw [hrun]⟩

/-- C5 witness: one blank field against a threshold of one. -/
theorem c5_insufficient_passwords_witness :
    stC.cipherobj = some cW ∧
    (((([""] : List String).map normalizeString).filter
        (fun s => 0 < s.length)).length < stC.nToUnlock) ∧
    (kbpDecrypt stC [""] gW).insufficientAlerted = true ∧
    (kbpDecrypt stC [""] gW).derivedKeys = [] ∧
    (kbpDecrypt stC [""] gW).trials = 0 ∧
    (kbpDecrypt stC [""] gW).outcome = DecOutcome.wrongPasscodes ∧
    (kbpDecrypt stC [""] gW).state.master = stC.master :=
  ⟨rfl, by decide,
   by rw [(c5_insufficient_passwords stC cW [""] gW rfl (by decide)).1],
   by rw [(c5_insufficient_passwords stC cW [""] gW rfl (by decide)).1],
   by rw [(c5_insufficient_passwords stC cW [""] gW rfl (by decide)).1],
   by rw [(c5_insufficient_passwords stC cW [""] gW rfl (by decide)).1],
   (c5_insufficient_passwords stC cW [""] gW rfl (by decide)).2⟩

/-- C1: for every plaintext, every list of N distinct non-blank passwords
with 2 ≤ N ≤ 8, every threshold M with 1 ≤ M ≤ N, and every M-element
subset of those passwords supplied in any order, encrypting via
`encryptWithPasswords` and then decrypting the resulting envelope via
`setCipherJSON`, `makeKeyCombinations` on the M supplied passwords,
`decryptKeys` and `decryptCiphertext` recovers exactly the original
plaintext bytes. -/
theorem c1_round_trip (st0 std : KBState) (g : RNG)
    (passwords supplied : List String) (m : Nat) (pt : Bytes)
    (hN2 : 2 ≤ passwords.length) (hN8 : passwords.length ≤ 8)
    (hnodup : passwords.Nodup)
    (hblank : ∀ p ∈ passwords, normalizeString p ≠ "")
    (hm1 : 1 ≤ m) (hmn : m ≤ passwords.length)
    (hsub : supplied.Subperm passwords) (hslen : supplied.length = m)
    (hpt : st0.plaintext = some pt)
    (env : CipherObj) (st1 : KBState) (g1 : RNG)
    (henc : encryptWithPasswords st0 passwords m g = (some env, st1, g1)) :
    (decryptKeys (makeKeyCombinations (setCipherJSON std env) supplied m).2).1 = true ∧
    ∃ stf,
      decryptCiphertext
        (decryptKeys (makeKeyCombinations (setCipherJSON std env) supplied m).2).2 =
        some stf ∧
      stf.plaintext = some pt := by
  have hm0 : m ≠ 0 := by omega
  have henv : env = encEnv st0 passwords m g pt :=
    Option.some.inj ((congrArg Prod.fst henc).symm.trans
      (encryptWithPasswords_fst st0 g passwords m pt hm0 hpt))
  subst henv
  have hmkc := makeKeyCombinations_eq
    (setCipherJSON std (encEnv st0 passwords m g pt)) supplied m hm0
  have hcombo1 : encCombos supplied m =
      [removeFirstSpace (joinAll "" (sortStrings (supplied.map normalizeString)))] := by
    unfold encCombos
    have hl : (sortStrings (supplied.map normalizeString)).length - 0 = m := by
      rw [sortStrings_length, List.length_map]
      omega
    simpa using combine_exact (sortStrings (supplied.map normalizeString)) m 0 "" hl
  rw [hcombo1, List.map_cons, List.map_nil] at hmkc
  have hmem : removeFirstSpace (joinAll ""
      (sortStrings (supplied.map normalizeString))) ∈ encCombos passwords m := by
    unfold encCombos
    exact supplied_combo_mem passwords supplied m hsub hslen
  have hkmem : makeKeyFromPassword (setCipherJSON std (encEnv st0 passwords m g pt))
      (removeFirstSpace (joinAll "" (sortStrings (supplied.map normalizeString)))) ∈
      encDerivedKeys st0 passwords m := by
    unfold encDerivedKeys
    exact List.mem_map.mpr ⟨_, hmem, rfl⟩
  have hbody : ∀ e ∈ encWrapped st0 passwords m g, e.key.body = encMasterKey g := by
    intro e he
    rw [encWrapped] at he
    exact (wrapKeys_forall (encMasterKey g) (encDerivedKeys st0 passwords m)
      (encG2 g) e ((shuffle_perm _ _).mem_iff.mp he)).1
  have hex : ∃ k ∈ [makeKeyFromPassword (setCipherJSON std (encEnv st0 passwords m g pt))
        (removeFirstSpace (joinAll "" (sortStrings (supplied.map normalizeString))))],
      ∃ e ∈ encWrapped st0 passwords m g,
        noble.decryptChaCha20Poly1305 k e.key e.iv ≠ none := by
    obtain ⟨e, he, htk, htn⟩ := wrapKeys_exists (encMasterKey g)
      (encDerivedKeys st0 passwords m) (encG2 g) _ hkmem
    refine ⟨_, List.mem_singleton.mpr rfl, e, ?_, ?_⟩
    · rw [encWrapped]
      exact (shuffle_perm _ _).mem_iff.mpr he
    · simp [noble.decryptChaCha20Poly1305, noble.aeadOpen, htk, htn]
  have hsucc := tryAllKeys_success _ (encWrapped st0 passwords m g)
    (encMasterKey g) hbody hex
  have hleg : isLegacyFormat (encEnv st0 passwords m g pt) = false := rfl
  have hdk : decryptKeys
      ((makeKeyCombinations (setCipherJSON std (encEnv st0 passwords m g pt))
        supplied m).2) =
      (true,
       {(makeKeyCombinations (setCipherJSON std (encEnv st0 passwords m g pt))
          supplied m).2 with master := some (encMasterKey g)}) := by
    have hproj : (setCipherJSON std (encEnv st0 passwords m g pt)).cipherobj =
        some (encEnv st0 passwords m g pt) := rfl
    have hkproj : (encEnv st0 passwords m g pt).keys =
        encWrapped st0 passwords m g := rfl
    rw [hmkc]
    simp [decryptKeys, hproj, hkproj, hleg, hsucc]
  refine ⟨by rw [hdk], ?_⟩
  have hdc : decryptCiphertext
      ((decryptKeys ((makeKeyCombinations
        (setCipherJSON std (encEnv st0 passwords m g pt)) supplied m).2)).2) =
      some {(decryptKeys ((makeKeyCombinations
        (setCipherJSON std (encEnv st0 passwords m g pt)) supplied m).2)).2 with
          plaintext := some pt} := by
    have hproj : (setCipherJSON std (encEnv st0 passwords m g pt)).cipherobj =
        some (encEnv st0 passwords m g pt) := rfl
    have hct : (encEnv st0 passwords m g pt).ct =
        some ⟨pt, encMasterKey g, encNonce g⟩ := rfl
    have hiv : (encEnv st0 passwords m g pt).iv = encNonce g := rfl
    rw [hdk, hmkc]
    simp [decryptCiphertext, hproj, hct, hiv, noble.decryptChaCha20Poly1305,
      noble.aeadOpen, hleg]
  exact ⟨_, hdc, rfl⟩

/-- C1 witness: three passwords, threshold two, a transposed two-password
subset recovers the plaintext. -/
theorem c1_round_trip_witness :
    List.Subperm ["beta", "alpha"] ["alpha", "beta", "gamma"] ∧
    (decryptKeys (makeKeyCombinations
      (setCipherJSON stC (encEnv stW ["alpha", "beta", "gamma"] 2 gW [72, 105, 33]))
      ["beta", "alpha"] 2).2).1 = true ∧
    ∃ stf,
      decryptCiphertext
        (decryptKeys (makeKeyCombinations
          (setCipherJSON stC (encEnv stW ["alpha", "beta", "gamma"] 2 gW [72, 105, 33]))
          ["beta", "alpha"] 2).2).2 = some stf ∧
      stf.plaintext = some [72, 105, 33] :=
  ⟨by decide,
   c1_round_trip stW stC gW ["alpha", "beta", "gamma"] ["beta", "alpha"] 2
     [72, 105, 33] (by decide) (by decide) (by decide) (by decide) (by decide)
     (by decide) (by decide) (by decide) rfl
     (encEnv stW ["alpha", "beta", "gamma"] 2 gW [72, 105, 33])
     (encryptWithPasswords stW ["alpha", "beta", "gamma"] 2 gW).2.1
     (encryptWithPasswords stW ["alpha", "beta", "gamma"] 2 gW).2.2 rfl⟩

end Keybearer
